import Mathlib

/-!
Verification of the URL deduplication pipeline of `url_filter.py`
(class `URLProcessThread`): extension filtering, URL signature and
query-fingerprint computation, grouping by signature, and
representative selection. Strings are modelled as `List Char`
(ASCII fragment). The Python float score only ever takes values in
`ℕ/2` (sums of 1, 1.5 and 2, all exactly representable), so it is
modelled exactly by its double, a `Nat` counted in half-points; the
order on scores is preserved and `scoreAsRat` recovers the spec's
numbers in `ℚ`.
-/

namespace UrlFilter

/-! ### Python string primitives (ASCII fragment) -/

/-- Python `s.split(sep)` for a single-character separator:
`"".split(c) = [""]`, empties are kept. -/
def pySplit (sep : Char) : List Char → List (List Char)
  | [] => [[]]
  | c :: cs =>
    match pySplit sep cs with
    | [] => [[]]
    | r :: rs => if c = sep then [] :: r :: rs else (c :: r) :: rs

/-- Splits at the first occurrence of `sep` (Python `s.split(sep, 1)` /
`s.find(sep)` + slicing); `none` when `sep` does not occur. -/
def splitFirst (sep : Char) : List Char → Option (List Char × List Char)
  | [] => none
  | c :: cs =>
    if c = sep then some ([], cs)
    else (splitFirst sep cs).map (fun p => (c :: p.1, p.2))

/-- Splits at the last occurrence of `sep` (Python `s.rfind(sep)` + slicing). -/
def splitLast (sep : Char) (l : List Char) : Option (List Char × List Char) :=
  match splitFirst sep l.reverse with
  | none => none
  | some (a, b) => some (b.reverse, a.reverse)

/-- Python `str.isdigit` on the ASCII fragment: nonempty and all `0`-`9`. -/
def pyIsdigit (l : List Char) : Bool :=
  !l.isEmpty && l.all Char.isDigit

/-- Python `str.lower` on the ASCII fragment. -/
def pyLower (l : List Char) : List Char :=
  l.map Char.toLower

/-- Python `s.endswith(suffix)`. -/
def pyEndsWith (s suffix : List Char) : Bool :=
  suffix.isSuffixOf s

/-! ### The model of `urllib.parse.urlparse` (fields used by the code:
`netloc`, `path`, `query`; `scheme`, `params` and `fragment` are carried
along for fidelity of the splitting). Non-ASCII `_checknetloc`
normalisation checks and bracketed-host validation beyond bracket
matching are outside the modelled ASCII fragment. -/

structure ParseResult where
  scheme : List Char
  netloc : List Char
  path : List Char
  params : List Char
  query : List Char
  fragment : List Char
deriving DecidableEq, Repr

/-- Characters allowed in a scheme after the initial letter. -/
def schemeChars : List Char :=
  ("abcdefghijklmnopqrstuvwxyzABCDEFGHIJKLMNOPQRSTUVWXYZ0123456789+-.").data

/-- WHATWG C0-control-or-space predicate used by `urlsplit` to strip
leading junk. -/
def isC0OrSpace (c : Char) : Bool := c.toNat ≤ 0x20

/-- Sanitisation performed by `urlsplit`: strip leading C0/space
characters, then remove every tab, CR and LF. -/
def sanitizeUrl (l : List Char) : List Char :=
  (l.dropWhile isC0OrSpace).filter (fun c => !(c = '\t' || c = '\r' || c = '\n'))

/-- Scheme recognition of `urlsplit`: a nonempty prefix before the first
`:`, starting with a letter, all characters drawn from `schemeChars`. -/
def splitScheme (l : List Char) : List Char × List Char :=
  match splitFirst ':' l with
  | none => ([], l)
  | some (before, after) =>
    match before with
    | [] => ([], l)
    | c :: _ =>
      if c.isAlpha && before.all (schemeChars.contains ·) then
        (pyLower before, after)
      else ([], l)

/-- Model of `urllib.parse.urlsplit`: returns `none` exactly where the
Python function raises `ValueError` (mismatched square bracket in the
authority). -/
def urlsplit (url : String) : Option ParseResult :=
  let l := sanitizeUrl url.data
  let (scheme, rest) := splitScheme l
  let (netloc, rest) :=
    match rest with
    | '/' :: '/' :: r =>
      (r.takeWhile (fun c => !(c = '/' || c = '?' || c = '#')),
       r.dropWhile (fun c => !(c = '/' || c = '?' || c = '#')))
    | r => ([], r)
  if (netloc.contains '[' != netloc.contains ']') then none
  else
    let (rest, fragment) :=
      match splitFirst '#' rest with
      | none => (rest, [])
      | some (a, b) => (a, b)
    let (path, query) :=
      match splitFirst '?' rest with
      | none => (rest, [])
      | some (a, b) => (a, b)
    some ⟨scheme, netloc, path, [], query, fragment⟩

/-- Model of `urllib.parse._splitparams`: strip a `;params` suffix from
the last path segment only. -/
def splitparams (p : List Char) : List Char × List Char :=
  match splitLast '/' p with
  | some (before, lastSeg) =>
    match splitFirst ';' lastSeg with
    | none => (p, [])
    | some (a, b) => (before ++ '/' :: a, b)
  | none =>
    match splitFirst ';' p with
    | none => (p, [])
    | some (a, b) => (a, b)

/-- Model of `urllib.parse.urlparse`: `urlsplit` plus the `;params`
split on the path. -/
def pyUrlparse (url : String) : Option ParseResult :=
  match urlsplit url with
  | none => none
  | some r =>
    if r.path.contains ';' then
      let (p, par) := splitparams r.path
      some { r with path := p, params := par }
    else some r

/-! ### Canonical finite sets of strings

Python `set` objects of strings are modelled canonically as sorted
duplicate-free lists: the code only ever uses membership, insertion,
size and (frozen) set equality, all of which the canonical form
represents faithfully. -/

/-- Lexicographic order on character lists (by code point). -/
def charListLe : List Char → List Char → Bool
  | [], _ => true
  | _ :: _, [] => false
  | a :: as, b :: bs => if a = b then charListLe as bs else decide (a.toNat < b.toNat)

/-- Inserts a key into a sorted duplicate-free list (Python `set.add`). -/
def setInsert (k : List Char) : List (List Char) → List (List Char)
  | [] => [k]
  | x :: xs =>
    if k = x then x :: xs
    else if charListLe k x then k :: x :: xs
    else x :: setInsert k xs

/-- Parameter fingerprint: a (canonically represented) set of query keys. -/
abbrev Fp := List (List Char)

/-! ### The functions of `URLProcessThread` -/

/-- Noise-parameter denylist of `analyze_query_params`. -/
def noise_params : List (List Char) :=
  ["timestamp", "time", "t", "random", "rand",
   "v", "version", "_", "_t", "cache",
   "utm_source", "utm_medium", "utm_campaign",
   "ga", "_ga", "fbclid", "ref", "source"].map String.data

/-- Characters marking a "complex" parameter value. -/
def complexChars : List Char := ("[]\x7b\x7d()|,;").data

/-- Score contributed by one occurrence of a parameter value
(the `if value:` block of `analyze_query_params`), in half-points:
`2` is the Python `1`, `4` the `2`, `3` the `1.5`. -/
def scoreValue (value : List Char) : Nat :=
  if value.isEmpty then 0
  else if pyIsdigit value then 2
  else if value.any (complexChars.contains ·) then 4
  else if 20 < value.length then 3
  else 2

/-- View of a half-point score as the rational number the Python
float holds. -/
def scoreAsRat (halves : Nat) : ℚ := halves / 2

/-- Body of the `for param in query_string.split('&')` loop of
`analyze_query_params`; the state is `(params, param_score)`. -/
def analyzeStep (acc : Fp × Nat) (param : List Char) : Fp × Nat :=
  match splitFirst '=' param with
  | none => acc
  | some (k, value) =>
    let key := pyLower k
    if key ∈ noise_params then acc
    else (setInsert key acc.1, acc.2 + scoreValue value)

/-- Model of `URLProcessThread.analyze_query_params`. -/
def analyze_query_params (query_string : List Char) : Fp × Nat :=
  if query_string.isEmpty then ([], 0)
  else (pySplit '&' query_string).foldl analyzeStep ([], 0)

/-- Placeholder token substituted for dynamic path segments. -/
def placeholder : List Char := ("\x7bparam\x7d").data

/-- Python `'/'.join`. -/
def joinSlash (l : List (List Char)) : List Char :=
  (l.intersperse ['/']).flatten

/-- Model of `URLProcessThread.get_url_signature`. -/
def get_url_signature (url : String) : List Char × Fp × Nat :=
  match pyUrlparse url with
  | none => (url.data, [], 0)
  | some parsed =>
    let netloc := pyLower parsed.netloc
    let path := pyLower parsed.path
    let path_parts := (pySplit '/' path).filterMap (fun part =>
      if part.isEmpty then none
      else if pyIsdigit part || 32 ≤ part.length then some placeholder
      else some part)
    let base_path := joinSlash path_parts
    let base_signature := netloc ++ base_path
    let pr := analyze_query_params parsed.query
    (base_signature, pr.1, pr.2)

/-- Extension filter of `URLProcessThread.run` (stage 1, inner loop):
an exception from `urlparse` drops the URL, otherwise the URL is kept
iff its lowercased path ends with no configured extension. -/
def keepUrl (static_extensions : List (List Char)) (url : String) : Bool :=
  match pyUrlparse url with
  | none => false
  | some parsed =>
    let path := pyLower parsed.path
    !(static_extensions.any (fun ext => pyEndsWith path ext))

/-- Group member: `(url, tuple(params), param_score)`; the fingerprint
tuple is kept in canonical set form (only its set and size are used). -/
abbrev Entry := String × Fp × Nat

/-- Group map in first-insertion key order (Python `defaultdict` +
insertion-ordered `dict`). -/
abbrev Groups := List (List Char × List Entry)

/-- Appends an entry to the bucket of `key`, creating the bucket at the
end on first sight of the key. -/
def groupInsert (key : List Char) (e : Entry) : Groups → Groups
  | [] => [(key, [e])]
  | (k, es) :: rest =>
    if k = key then (k, es ++ [e]) :: rest
    else (k, es) :: groupInsert key e rest

/-- One iteration of the grouping loop of `run` (stage 1). -/
def addUrl (g : Groups) (url : String) : Groups :=
  let s := get_url_signature url
  groupInsert s.1 (url, s.2.1, s.2.2) g

/-- Grouping of a stream of (already filtered) URLs. -/
def groupsOf (urls : List String) : Groups := urls.foldl addUrl []

/-- Descending lexicographic comparison used by `sorted(..., key=lambda
x: (len(x[1]), x[2]), reverse=True)`: Python tuple order on the key. -/
def tupleLe (a b : Nat × Nat) : Bool :=
  decide (a.1 < b.1) || (decide (a.1 = b.1) && decide (a.2 ≤ b.2))

/-- Sort key of a group member. -/
def entryKey (e : Entry) : Nat × Nat := (e.2.1.length, e.2.2)

/-- The `reverse=True` stable order: `a` may precede `b` iff `a`'s key
is at least `b`'s key. -/
def entryLe (a b : Entry) : Bool := tupleLe (entryKey b) (entryKey a)

/-- Stable insertion: places `a` before the first element it may
precede. -/
def insertLe {α : Type} (le : α → α → Bool) (a : α) : List α → List α
  | [] => [a]
  | x :: xs => if le a x then a :: x :: xs else x :: insertLe le a xs

/-- Stable insertion sort; proved equal to `List.mergeSort` below
(`insertionSort_eq_mergeSort`), it is used in the executable
definitions because it reduces by kernel computation. -/
def insertionSort {α : Type} (le : α → α → Bool) : List α → List α
  | [] => []
  | a :: rest => insertLe le a (insertionSort le rest)

/-- Sorted prefix of a group: `sorted(group[:100], key=..., reverse=True)`
(Python's `sorted` is a stable sort; so is this one). -/
def sortedUrls (group : List Entry) : List Entry :=
  insertionSort entryLe (group.take 100)

/-- One iteration of the selection loop of `run` (stage 2); the state is
`(final_urls, selected_params)`. -/
def selectStep (st : List String × List Fp) (e : Entry) : List String × List Fp :=
  let params_key := e.2.1
  if params_key ∉ st.2 ∧ st.2.length < 5 then (st.1 ++ [e.1], params_key :: st.2)
  else st

/-- Representative selection for one group (stage 2 of `run`). -/
def selectGroup (group : List Entry) : List String :=
  ((sortedUrls group).foldl selectStep ([], [])).1

/-- Full pipeline result: filter, group, select, flattened in group
order (the result list emitted by `run` when it is not cancelled). -/
def processUrls (urls : List String) (static_extensions : List (List Char)) : List String :=
  let filtered := urls.filter (keepUrl static_extensions)
  ((groupsOf filtered).map (fun g => selectGroup g.2)).flatten

/-! ### The batched, cancellable run loop

`run` is the literal embedding of `URLProcessThread.run`: stage 1 walks
batches of 1000, stage 2 walks groups, a cooperative flag is read at the
start of each iteration (the `k`-th read returns `flag k`, abstracting
the asynchronously mutated `is_running` field), progress is emitted
after each iteration and the result event at the very end. -/

/-- Batches of 1000: the `i`-th batch is `urls[1000*i : 1000*i + 1000]`,
one per element of `range(0, total_urls, batch_size)`. -/
def chunks (l : List String) : List (List String) :=
  (List.range ((l.length + 999) / 1000)).map (fun i => (l.drop (1000 * i)).take 1000)

/-- Events observable by the controller thread. -/
inductive Event where
  | progress (processed total stage : Nat)
  | result (urls : List String)
  | err (msg : String)
deriving DecidableEq

/-- Stage 1 of `run`: returns the emitted events and, unless cancelled,
the accumulated groups and the next flag-read index. -/
def stage1 (exts : List (List Char)) (total : Nat) (flag : Nat → Bool) :
    List (List String) → Nat → Nat → Groups → List Event × Option (Groups × Nat)
  | [], k, _, groups => ([], some (groups, k))
  | batch :: rest, k, processed, groups =>
    if flag k then
      let filtered_batch := batch.filter (keepUrl exts)
      let groups' := filtered_batch.foldl addUrl groups
      let processed' := processed + batch.length
      let r := stage1 exts total flag rest (k + 1) processed' groups'
      (Event.progress processed' total 1 :: r.1, r.2)
    else ([], none)

/-- Stage 2 of `run`: returns the emitted events and, unless cancelled,
the selected representatives. -/
def stage2 (flag : Nat → Bool) (total : Nat) :
    List (List Char × List Entry) → Nat → Nat → List Event × Option (List String)
  | [], _, _ => ([], some [])
  | (_, g) :: rest, k, pg =>
    if flag k then
      let sel := selectGroup g
      let r := stage2 flag total rest (k + 1) (pg + 1)
      (Event.progress (pg + 1) total 2 :: r.1, r.2.map (sel ++ ·))
    else ([], none)

/-- Model of `URLProcessThread.run`: the sequence of emitted events. -/
def run (flag : Nat → Bool) (urls : List String) (exts : List (List Char)) : List Event :=
  let total_urls := urls.length
  match stage1 exts total_urls flag (chunks urls) 0 0 [] with
  | (evs1, none) => evs1
  | (evs1, some (groups, k)) =>
    match stage2 flag groups.length groups k 0 with
    | (evs2, none) => evs1 ++ evs2
    | (evs2, some final_urls) => evs1 ++ evs2 ++ [Event.result final_urls]

/-- Number of flag reads a run performs when never cancelled: one per
batch plus one per group. -/
def numChecks (urls : List String) (exts : List (List Char)) : Nat :=
  (chunks urls).length + (groupsOf (urls.filter (keepUrl exts))).length

/-! ### Specification-side definitions

These follow the wording of the specification and are compared with the
source-derived definitions above in the refinement theorems. -/

/-- Signature key as worded by the spec: lowercase host and path, split
the path on `/`, drop empty segments, replace all-digit or length-≥-32
segments by the placeholder, rejoin with `/`, concatenate host with the
rejoined path. -/
def specSignatureKey (host path : List Char) : List Char :=
  let segs := (pySplit '/' (pyLower path)).filter (fun s => !s.isEmpty)
  let replaced := segs.map (fun s =>
    if pyIsdigit s || 32 ≤ s.length then placeholder else s)
  pyLower host ++ joinSlash replaced

/-- Selection walk as worded by the spec: walk the sorted list, emit
each URL whose exact fingerprint set is new, and stop once 5 distinct
fingerprints are taken. -/
def specSelect : Nat → List Fp → List Entry → List String
  | _, _, [] => []
  | budget, seen, e :: rest =>
    if budget = 0 then []
    else if e.2.1 ∈ seen then specSelect budget seen rest
    else e.1 :: specSelect (budget - 1) (e.2.1 :: seen) rest

/-- Recursive form of the stage-2 selection loop, paired with the
fingerprint each emitted URL carried. -/
def walkSelect : List Fp → List Entry → List (String × Fp)
  | _, [] => []
  | selected, e :: rest =>
    if e.2.1 ∉ selected ∧ selected.length < 5 then
      (e.1, e.2.1) :: walkSelect (e.2.1 :: selected) rest
    else walkSelect selected rest

/-- First occurrence of each element, in arrival order. -/
def firstOccs {α : Type} [DecidableEq α] : List α → List α
  | [] => []
  | a :: rest => a :: firstOccs (rest.filter (· ≠ a))
termination_by l => l.length
decreasing_by
  exact Nat.lt_succ_of_le (List.length_filter_le _ _)

/-- Number of elements not in `seen`, counted up to duplicates. -/
def countNew {α : Type} [DecidableEq α] : List α → List α → Nat
  | _, [] => 0
  | seen, f :: rest =>
    if f ∈ seen then countNew seen rest else 1 + countNew (f :: seen) rest

/-- Number of distinct fingerprints among the members of a group. -/
def distinctFps (l : List Entry) : Nat :=
  countNew [] (l.map (fun e => e.2.1))

/-- Surviving fingerprint key contributed by one `&`-separated query
pair, per the spec: `none` for a pair without `=` or with a noise key. -/
def specPairKey (param : List Char) : Option (List Char) :=
  match splitFirst '=' param with
  | none => none
  | some (k, _) =>
    let key := pyLower k
    if key ∈ noise_params then none else some key

/-- Score contributed by one `&`-separated query pair, per the spec:
each surviving occurrence scores its value independently. -/
def specPairScore (param : List Char) : Nat :=
  match splitFirst '=' param with
  | none => 0
  | some (k, value) =>
    if pyLower k ∈ noise_params then 0 else scoreValue value

/-! ### The insertion sort agrees with `List.mergeSort` -/

theorem insertLe_append {α : Type} (le : α → α → Bool) (a : α) :
    ∀ (l₁ l₂ : List α), (∀ b ∈ l₁, le a b = false) → (∀ y ∈ l₂, le a y = true) →
      insertLe le a (l₁ ++ l₂) = l₁ ++ a :: l₂ := by
  intro l₁
  induction l₁ with
  | nil =>
    intro l₂ _ h₂
    cases l₂ with
    | nil => rfl
    | cons y ys => simp [insertLe, h₂ y (by simp)]
  | cons b l₁ ih =>
    intro l₂ h₁ h₂
    simp only [List.cons_append, insertLe, h₁ b (by simp), Bool.false_eq_true, if_false]
    exact congrArg (List.cons b) (ih l₂ (fun x hx => h₁ x (by simp [hx])) h₂)

theorem insertionSort_eq_mergeSort {α : Type} (le : α → α → Bool)
    (trans : ∀ (a b c : α), le a b → le b c → le a c)
    (total : ∀ (a b : α), le a b || le b a) :
    ∀ l : List α, insertionSort le l = l.mergeSort le
  | [] => by simp [insertionSort, List.mergeSort_nil]
  | a :: l => by
    obtain ⟨l₁, l₂, h1, h2, h3⟩ := List.mergeSort_cons trans total a l
    have hs := List.sorted_mergeSort trans total (a :: l)
    rw [h1] at hs
    have h₂ : ∀ y ∈ l₂, le a y = true := by
      intro y hy
      exact List.rel_of_pairwise_cons (List.pairwise_append.mp hs).2.1 hy
    have h₁ : ∀ b ∈ l₁, le a b = false := by
      intro b hb
      simpa using h3 b hb
    rw [insertionSort, insertionSort_eq_mergeSort le trans total l, h2,
      insertLe_append le a l₁ l₂ h₁ h₂, h1]

/-! ### The comparison used by the group sort is a total preorder -/

theorem tupleLe_iff {a b : Nat × Nat} :
    tupleLe a b = true ↔ a.1 < b.1 ∨ (a.1 = b.1 ∧ a.2 ≤ b.2) := by
  simp [tupleLe]

theorem entryLe_trans : ∀ (a b c : Entry), entryLe a b → entryLe b c → entryLe a c := by
  intro a b c h1 h2
  simp only [entryLe, tupleLe_iff] at h1 h2 ⊢
  omega

theorem entryLe_total : ∀ (a b : Entry), entryLe a b || entryLe b a := by
  intro a b
  simp only [entryLe, Bool.or_eq_true, tupleLe_iff]
  omega

theorem sortedUrls_eq_mergeSort (g : List Entry) :
    sortedUrls g = (g.take 100).mergeSort entryLe :=
  insertionSort_eq_mergeSort entryLe entryLe_trans entryLe_total _

theorem sortedUrls_perm (g : List Entry) : List.Perm (sortedUrls g) (g.take 100) := by
  rw [sortedUrls_eq_mergeSort]
  exact List.mergeSort_perm _ _

theorem sortedUrls_sorted (g : List Entry) :
    (sortedUrls g).Pairwise (fun a b => entryLe a b = true) := by
  rw [sortedUrls_eq_mergeSort]
  exact List.sorted_mergeSort entryLe_trans entryLe_total _

/-- Stability of a stable sort, filter form: elements whose keys make the
comparison hold in both directions keep their relative order. -/
theorem filter_mergeSort_of_const {α : Type} (le : α → α → Bool)
    (trans : ∀ (a b c : α), le a b → le b c → le a c)
    (total : ∀ (a b : α), le a b || le b a)
    (p : α → Bool) (hp : ∀ a b, p a → p b → le a b)
    (l : List α) : (l.mergeSort le).filter p = l.filter p := by
  have hpw : (l.filter p).Pairwise (fun a b : α => le a b = true) := by
    apply List.pairwise_of_forall_mem_list
    intro a ha b hb
    exact hp a b (List.of_mem_filter ha) (List.of_mem_filter hb)
  have h1 : List.Sublist (l.filter p) (List.mergeSort l le) :=
    List.sublist_mergeSort trans total hpw (List.filter_sublist l)
  have h2 : List.Sublist (l.filter p) ((List.mergeSort l le).filter p) := by
    have h3 := h1.filter p
    have he : (l.filter p).filter p = l.filter p := by
      simp [List.filter_filter]
    rwa [he] at h3
  have hlen : ((List.mergeSort l le).filter p).length = (l.filter p).length :=
    ((List.mergeSort_perm l le).filter p).length_eq
  exact (h2.eq_of_length hlen.symm).symm

/-- Stability of the group sort: the members carrying any one sort key
appear in the sorted list exactly in their arrival order. -/
theorem sortedUrls_filter_key (g : List Entry) (k : Nat × Nat) :
    (sortedUrls g).filter (fun e => entryKey e = k) =
      (g.take 100).filter (fun e => entryKey e = k) := by
  rw [sortedUrls_eq_mergeSort]
  apply filter_mergeSort_of_const entryLe entryLe_trans entryLe_total
  intro a b ha hb
  simp only [decide_eq_true_eq] at ha hb
  simp [entryLe, ha, hb, tupleLe_iff]

/-! ### The selection loop -/

theorem foldl_selectStep_fst (l : List Entry) :
    ∀ (acc : List String × List Fp),
      (l.foldl selectStep acc).1 = acc.1 ++ (walkSelect acc.2 l).map Prod.fst := by
  induction l with
  | nil => intro acc; simp [walkSelect]
  | cons e rest ih =>
    intro acc
    by_cases h : e.2.1 ∉ acc.2 ∧ acc.2.length < 5
    · simp only [List.foldl_cons, walkSelect, if_pos h]
      rw [show selectStep acc e = (acc.1 ++ [e.1], e.2.1 :: acc.2) by
        simp [selectStep, if_pos h]]
      rw [ih]
      simp
    · simp only [List.foldl_cons, walkSelect, if_neg h]
      rw [show selectStep acc e = acc by simp [selectStep, if_neg h]]
      exact ih acc

theorem selectGroup_eq_walkSelect (g : List Entry) :
    selectGroup g = (walkSelect [] (sortedUrls g)).map Prod.fst := by
  rw [selectGroup, foldl_selectStep_fst]
  simp

theorem walkSelect_stop (l : List Entry) :
    ∀ seen : List Fp, 5 ≤ seen.length → walkSelect seen l = [] := by
  induction l with
  | nil => intro seen _; rfl
  | cons e rest ih =>
    intro seen hlen
    rw [walkSelect, if_neg (by omega)]
    exact ih seen hlen

theorem walkSelect_eq_specSelect (l : List Entry) :
    ∀ seen : List Fp,
      (walkSelect seen l).map Prod.fst = specSelect (5 - seen.length) seen l := by
  induction l with
  | nil => intro seen; simp [walkSelect, specSelect]
  | cons e rest ih =>
    intro seen
    by_cases h5 : seen.length < 5
    · rw [specSelect, if_neg (by omega)]
      by_cases hm : e.2.1 ∈ seen
      · rw [walkSelect, if_neg (by simp [hm]), ih seen, if_pos hm]
      · rw [walkSelect, if_pos ⟨hm, h5⟩, if_neg hm]
        simp only [List.map_cons]
        rw [ih (e.2.1 :: seen)]
        have hb : 5 - (e.2.1 :: seen).length = 5 - seen.length - 1 := by
          simp only [List.length_cons]
          omega
        rw [hb]
    · rw [walkSelect_stop _ seen (by omega), specSelect,
        if_pos (by omega : 5 - seen.length = 0)]
      rfl


theorem walkSelect_length (l : List Entry) :
    ∀ seen : List Fp,
      (walkSelect seen l).length =
        min (5 - seen.length) (countNew seen (l.map (fun e => e.2.1))) := by
  induction l with
  | nil => intro seen; simp [walkSelect, countNew]
  | cons e rest ih =>
    intro seen
    by_cases hm : e.2.1 ∈ seen
    · rw [walkSelect, if_neg (by simp [hm]), List.map_cons, countNew, if_pos hm]
      exact ih seen
    · by_cases h5 : seen.length < 5
      · rw [walkSelect, if_pos ⟨hm, h5⟩, List.map_cons, countNew, if_neg hm]
        simp only [List.length_cons, ih (e.2.1 :: seen), List.length_cons]
        omega
      · rw [walkSelect, if_neg (by omega), List.map_cons, countNew, if_neg hm, ih seen]
        omega

theorem walkSelect_snd_nodup (l : List Entry) :
    ∀ seen : List Fp,
      ((walkSelect seen l).map Prod.snd).Nodup ∧
        ∀ f ∈ (walkSelect seen l).map Prod.snd, f ∉ seen := by
  induction l with
  | nil => intro seen; simp [walkSelect]
  | cons e rest ih =>
    intro seen
    by_cases h : e.2.1 ∉ seen ∧ seen.length < 5
    · rw [walkSelect, if_pos h]
      obtain ⟨ihn, ihs⟩ := ih (e.2.1 :: seen)
      simp only [List.map_cons, List.nodup_cons]
      refine ⟨⟨?_, ihn⟩, ?_⟩
      · intro hmem
        exact (ihs _ hmem) (by simp)
      · intro f hf
        rcases List.mem_cons.mp hf with hf | hf
        · exact hf ▸ h.1
        · intro hfs
          exact (ihs f hf) (by simp [hfs])
    · rw [walkSelect, if_neg h]
      exact ih seen

theorem walkSelect_mem (l : List Entry) :
    ∀ (seen : List Fp) (p : String × Fp),
      p ∈ walkSelect seen l → ∃ e ∈ l, p = (e.1, e.2.1) := by
  induction l with
  | nil => intro seen p hp; simp [walkSelect] at hp
  | cons e rest ih =>
    intro seen p hp
    by_cases h : e.2.1 ∉ seen ∧ seen.length < 5
    · rw [walkSelect, if_pos h] at hp
      rcases List.mem_cons.mp hp with hp | hp
      · exact ⟨e, by simp, hp⟩
      · obtain ⟨e', he', hpe⟩ := ih _ p hp
        exact ⟨e', by simp [he'], hpe⟩
    · rw [walkSelect, if_neg h] at hp
      obtain ⟨e', he', hpe⟩ := ih _ p hp
      exact ⟨e', by simp [he'], hpe⟩

/-! ### Counting distinct fingerprints -/

theorem countNew_congr {α : Type} [DecidableEq α] (l : List α) :
    ∀ s₁ s₂ : List α, (∀ x, x ∈ s₁ ↔ x ∈ s₂) → countNew s₁ l = countNew s₂ l := by
  induction l with
  | nil => intro s₁ s₂ _; rfl
  | cons f rest ih =>
    intro s₁ s₂ h
    by_cases hm : f ∈ s₁
    · rw [countNew, if_pos hm, countNew, if_pos ((h f).mp hm)]
      exact ih s₁ s₂ h
    · rw [countNew, if_neg hm, countNew, if_neg (fun hc => hm ((h f).mpr hc))]
      refine congrArg (1 + ·) (ih _ _ ?_)
      intro x
      simp [h x]

theorem countNew_swap {α : Type} [DecidableEq α] (a b : α) (l seen : List α) :
    countNew seen (a :: b :: l) = countNew seen (b :: a :: l) := by
  by_cases ha : a ∈ seen <;> by_cases hb : b ∈ seen
  · simp [countNew, ha, hb]
  · simp [countNew, ha, hb, List.mem_cons]
  · simp [countNew, ha, hb, List.mem_cons]
  · by_cases hab : a = b
    · subst hab
      simp [countNew, ha, List.mem_cons]
    · have hab' : b ≠ a := fun h => hab h.symm
      rw [countNew, if_neg ha, countNew,
        if_neg (by simp [List.mem_cons, hab', hb] : ¬ b ∈ a :: seen)]
      rw [countNew, if_neg hb, countNew,
        if_neg (by simp [List.mem_cons, hab, ha] : ¬ a ∈ b :: seen)]
      have hc := countNew_congr l (b :: a :: seen) (a :: b :: seen)
        (by intro x; simp only [List.mem_cons]; tauto)
      omega

theorem countNew_perm {α : Type} [DecidableEq α] {l l' : List α}
    (hp : List.Perm l l') : ∀ seen : List α, countNew seen l = countNew seen l' := by
  induction hp with
  | nil => intro seen; rfl
  | cons x _ ih =>
    intro seen
    by_cases hm : x ∈ seen
    · rw [countNew, if_pos hm, countNew, if_pos hm, ih seen]
    · rw [countNew, if_neg hm, countNew, if_neg hm, ih (x :: seen)]
  | swap x y l =>
    intro seen
    exact countNew_swap y x l seen
  | trans _ _ ih₁ ih₂ =>
    intro seen
    rw [ih₁ seen, ih₂ seen]

theorem selectGroup_length (g : List Entry) :
    (selectGroup g).length = min 5 (distinctFps (g.take 100)) := by
  rw [selectGroup_eq_walkSelect]
  rw [List.length_map, walkSelect_length]
  have : countNew [] ((sortedUrls g).map (fun e => e.2.1)) =
      countNew [] ((g.take 100).map (fun e => e.2.1)) :=
    countNew_perm ((sortedUrls_perm g).map _) []
  rw [this]
  rfl

/-! ### The canonical set representation is sound -/

theorem char_toNat_inj {a b : Char} (h : a.toNat = b.toNat) : a = b :=
  Char.ext (UInt32.toNat.inj h)

theorem charListLe_refl : ∀ a : List Char, charListLe a a = true
  | [] => rfl
  | c :: cs => by simp [charListLe, charListLe_refl cs]

theorem charListLe_total : ∀ a b : List Char, charListLe a b || charListLe b a := by
  intro a
  induction a with
  | nil => intro b; simp [charListLe]
  | cons c cs ih =>
    intro b
    cases b with
    | nil => simp [charListLe]
    | cons d ds =>
      by_cases h : c = d
      · subst h
        simpa [charListLe] using ih ds
      · have h' : d ≠ c := fun hh => h hh.symm
        have hn : c.toNat ≠ d.toNat := fun hn => h (char_toNat_inj hn)
        simp only [charListLe, if_neg h, if_neg h', Bool.or_eq_true, decide_eq_true_eq]
        omega

theorem charListLe_trans : ∀ a b c : List Char,
    charListLe a b → charListLe b c → charListLe a c := by
  intro a
  induction a with
  | nil => intro b c _ _; rfl
  | cons x xs ih =>
    intro b c h1 h2
    cases b with
    | nil => simp [charListLe] at h1
    | cons y ys =>
      cases c with
      | nil => simp [charListLe] at h2
      | cons z zs =>
        by_cases hxy : x = y <;> by_cases hyz : y = z
        · subst hxy; subst hyz
          simp only [charListLe, if_pos rfl] at h1 h2 ⊢
          exact ih ys zs h1 h2
        · subst hxy
          simp only [charListLe, if_pos rfl, if_neg hyz] at h2 ⊢
          exact h2
        · subst hyz
          simp only [charListLe, if_neg hxy] at h1 ⊢
          exact h1
        · simp only [charListLe, if_neg hxy, if_neg hyz, decide_eq_true_eq] at h1 h2
          have hxz : x.toNat ≠ z.toNat := by omega
          have hne : x ≠ z := fun he => hxz (congrArg Char.toNat he)
          simp only [charListLe, if_neg hne, decide_eq_true_eq]
          omega

theorem charListLe_antisymm : ∀ a b : List Char,
    charListLe a b → charListLe b a → a = b := by
  intro a
  induction a with
  | nil =>
    intro b h1 h2
    cases b with
    | nil => rfl
    | cons y ys => simp [charListLe] at h2
  | cons x xs ih =>
    intro b h1 h2
    cases b with
    | nil => simp [charListLe] at h1
    | cons y ys =>
      by_cases hxy : x = y
      · subst hxy
        simp only [charListLe, if_pos rfl] at h1 h2
        rw [ih ys h1 h2]
      · have h' : y ≠ x := fun hh => hxy hh.symm
        simp only [charListLe, if_neg hxy, if_neg h', decide_eq_true_eq] at h1 h2
        omega

theorem mem_setInsert (k x : List Char) :
    ∀ s, x ∈ setInsert k s ↔ x = k ∨ x ∈ s := by
  intro s
  induction s with
  | nil => simp [setInsert]
  | cons y ys ih =>
    simp only [setInsert]
    by_cases h1 : k = y
    · rw [if_pos h1]
      subst h1
      simp only [List.mem_cons]
      tauto
    · by_cases h2 : charListLe k y = true
      · rw [if_neg h1, if_pos h2]
        simp only [List.mem_cons]
      · rw [if_neg h1, if_neg h2]
        simp only [List.mem_cons, ih]
        tauto

/-- Strictly-sorted invariant of the canonical set representation. -/
def SSorted (l : List (List Char)) : Prop :=
  l.Pairwise (fun a b => charListLe a b = true ∧ a ≠ b)

theorem setInsert_ssorted (k : List Char) :
    ∀ s, SSorted s → SSorted (setInsert k s) := by
  intro s
  induction s with
  | nil =>
    intro _
    simp [setInsert, SSorted]
  | cons y ys ih =>
    intro hs
    have hy : ∀ b ∈ ys, charListLe y b = true ∧ y ≠ b :=
      fun b hb => List.rel_of_pairwise_cons hs hb
    have hys : SSorted ys := hs.tail
    by_cases h1 : k = y
    · subst h1
      simpa [setInsert] using hs
    · by_cases h2 : charListLe k y
      · rw [SSorted, setInsert, if_neg h1, if_pos h2]
        refine List.Pairwise.cons ?_ hs
        intro b hb
        rcases List.mem_cons.mp hb with hb | hb
        · exact hb ▸ ⟨h2, h1⟩
        · obtain ⟨hyb, hyn⟩ := hy b hb
          refine ⟨charListLe_trans k y b h2 hyb, ?_⟩
          intro he
          subst he
          exact h1 (charListLe_antisymm k y h2 hyb)
      · rw [SSorted, setInsert, if_neg h1, if_neg (by simp [h2])]
        refine List.Pairwise.cons ?_ (ih hys)
        intro b hb
        rcases (mem_setInsert k b _).mp hb with hb | hb
        · rw [hb]
          have ht := charListLe_total k y
          rw [Bool.or_eq_true] at ht
          have hyk : charListLe y k = true := by
            rcases ht with hx | hx
            · exact absurd hx h2
            · exact hx
          exact ⟨hyk, fun he => h1 he.symm⟩
        · exact hy b hb

theorem ssorted_nodup {l : List (List Char)} (h : SSorted l) : l.Nodup :=
  h.imp (fun hab => hab.2)

/-! ### Structure of `analyze_query_params` -/

theorem mem_analyzeStep (acc : Fp × Nat) (p k : List Char) :
    k ∈ (analyzeStep acc p).1 ↔ specPairKey p = some k ∨ k ∈ acc.1 := by
  cases hsp : splitFirst '=' p with
  | none => simp [analyzeStep, specPairKey, hsp]
  | some kv =>
    obtain ⟨kk, vv⟩ := kv
    by_cases hn : pyLower kk ∈ noise_params
    · simp [analyzeStep, specPairKey, hsp, hn]
    · simp only [analyzeStep, specPairKey, hsp, if_neg hn, mem_setInsert,
        Option.some.injEq]
      constructor
      · rintro (h | h)
        · exact Or.inl h.symm
        · exact Or.inr h
      · rintro (h | h)
        · exact Or.inl h.symm
        · exact Or.inr h

theorem score_analyzeStep (acc : Fp × Nat) (p : List Char) :
    (analyzeStep acc p).2 = acc.2 + specPairScore p := by
  cases hsp : splitFirst '=' p with
  | none => simp [analyzeStep, specPairScore, hsp]
  | some kv =>
    obtain ⟨kk, vv⟩ := kv
    by_cases hn : pyLower kk ∈ noise_params
    · simp [analyzeStep, specPairScore, hsp, hn]
    · simp [analyzeStep, specPairScore, hsp, hn]

theorem foldl_analyzeStep_mem (ps : List (List Char)) :
    ∀ (acc : Fp × Nat) (k : List Char),
      k ∈ (ps.foldl analyzeStep acc).1 ↔
        k ∈ acc.1 ∨ ∃ p ∈ ps, specPairKey p = some k := by
  induction ps with
  | nil => intro acc k; simp
  | cons p rest ih =>
    intro acc k
    rw [List.foldl_cons, ih, mem_analyzeStep]
    simp only [List.mem_cons]
    constructor
    · rintro ((h | h) | ⟨q, hq, hk⟩)
      · exact Or.inr ⟨p, Or.inl rfl, h⟩
      · exact Or.inl h
      · exact Or.inr ⟨q, Or.inr hq, hk⟩
    · rintro (h | ⟨q, hq | hq, hk⟩)
      · exact Or.inl (Or.inr h)
      · exact Or.inl (Or.inl (hq ▸ hk))
      · exact Or.inr ⟨q, hq, hk⟩

theorem foldl_analyzeStep_score (ps : List (List Char)) :
    ∀ acc : Fp × Nat,
      (ps.foldl analyzeStep acc).2 = acc.2 + (ps.map specPairScore).sum := by
  induction ps with
  | nil => intro acc; simp
  | cons p rest ih =>
    intro acc
    rw [List.foldl_cons, ih, score_analyzeStep]
    simp only [List.map_cons, List.sum_cons]
    omega

theorem ssorted_analyzeStep (acc : Fp × Nat) (p : List Char) (h : SSorted acc.1) :
    SSorted ((analyzeStep acc p).1) := by
  cases hsp : splitFirst '=' p with
  | none => simpa [analyzeStep, hsp] using h
  | some kv =>
    obtain ⟨kk, vv⟩ := kv
    by_cases hn : pyLower kk ∈ noise_params
    · simpa [analyzeStep, hsp, hn] using h
    · simpa [analyzeStep, hsp, hn] using setInsert_ssorted (pyLower kk) acc.1 h

theorem foldl_analyzeStep_ssorted (ps : List (List Char)) :
    ∀ acc : Fp × Nat, SSorted acc.1 → SSorted ((ps.foldl analyzeStep acc).1) := by
  induction ps with
  | nil => intro acc h; exact h
  | cons p rest ih =>
    intro acc h
    rw [List.foldl_cons]
    exact ih _ (ssorted_analyzeStep acc p h)

theorem analyze_query_params_nodup (q : List Char) :
    (analyze_query_params q).1.Nodup := by
  rw [analyze_query_params]
  by_cases hq : q.isEmpty
  · simp [hq]
  · rw [if_neg hq]
    exact ssorted_nodup (foldl_analyzeStep_ssorted _ ([], 0) (by simp [SSorted]))

/-! ### Structure of the signature key -/

theorem filterMap_segments (l : List (List Char)) :
    l.filterMap (fun part =>
      if part.isEmpty then none
      else if pyIsdigit part || 32 ≤ part.length then some placeholder else some part) =
    (l.filter (fun s => !s.isEmpty)).map
      (fun s => if pyIsdigit s || 32 ≤ s.length then placeholder else s) := by
  induction l with
  | nil => rfl
  | cons p rest ih =>
    by_cases he : p.isEmpty
    · have he' : p = [] := by simpa using he
      subst he'
      simp [List.filterMap_cons, List.filter_cons]
      simpa using ih
    · have he' : p ≠ [] := by simpa using he
      by_cases hd : pyIsdigit p = true ∨ 32 ≤ p.length
      · simp [List.filterMap_cons, List.filter_cons, he', hd]
        simpa using ih
      · simp [List.filterMap_cons, List.filter_cons, he', hd]
        simpa using ih

theorem get_url_signature_key (url : String) (p : ParseResult)
    (h : pyUrlparse url = some p) :
    (get_url_signature url).1 = specSignatureKey p.netloc p.path := by
  simp only [get_url_signature, h, specSignatureKey]
  rw [filterMap_segments]

/-! ### Structure of the grouping fold -/

theorem keys_groupInsert (key : List Char) (e : Entry) :
    ∀ g : Groups, (groupInsert key e g).map Prod.fst =
      if key ∈ g.map Prod.fst then g.map Prod.fst else g.map Prod.fst ++ [key] := by
  intro g
  induction g with
  | nil => simp [groupInsert]
  | cons kv rest ih =>
    obtain ⟨k, es⟩ := kv
    by_cases h : k = key
    · subst h
      simp [groupInsert, List.mem_cons]
    · have h' : ¬ key = k := fun hh => h hh.symm
      simp only [groupInsert, if_neg h, List.map_cons, ih, List.mem_cons, h',
        false_or]
      by_cases hm : key ∈ rest.map Prod.fst
      · simp [hm]
      · simp [hm]

theorem mem_groupInsert_entry (key : List Char) (e : Entry) :
    ∀ (g : Groups) (sig : List Char) (es : List Entry) (x : Entry),
      (sig, es) ∈ groupInsert key e g → x ∈ es →
        (∃ es₀, (sig, es₀) ∈ g ∧ x ∈ es₀) ∨ x = e := by
  intro g
  induction g with
  | nil =>
    intro sig es x hmem hx
    have h1 : (sig, es) = (key, [e]) :=
      List.mem_singleton.mp (by simpa [groupInsert] using hmem)
    have h2 : es = [e] := congrArg Prod.snd h1
    rw [h2] at hx
    exact Or.inr (List.mem_singleton.mp hx)
  | cons kv rest ih =>
    obtain ⟨k, es'⟩ := kv
    intro sig es x hmem hx
    by_cases h : k = key
    · subst h
      rw [show groupInsert k e ((k, es') :: rest) = (k, es' ++ [e]) :: rest from by
        simp [groupInsert]] at hmem
      rcases List.mem_cons.mp hmem with heq | hmem
      · have h2 : es = es' ++ [e] := congrArg Prod.snd heq
        rw [h2] at hx
        rcases List.mem_append.mp hx with hx | hx
        · have h1 : sig = k := congrArg Prod.fst heq
          exact Or.inl ⟨es', by simp [h1], hx⟩
        · exact Or.inr (List.mem_singleton.mp hx)
      · exact Or.inl ⟨es, List.mem_cons_of_mem _ hmem, hx⟩
    · rw [show groupInsert key e ((k, es') :: rest) = (k, es') :: groupInsert key e rest from by
        simp [groupInsert, h]] at hmem
      rcases List.mem_cons.mp hmem with heq | hmem
      · exact Or.inl ⟨es, by simp [heq], hx⟩
      · rcases ih sig es x hmem hx with ⟨es₀, hin, hxin⟩ | hxe
        · exact Or.inl ⟨es₀, List.mem_cons_of_mem _ hin, hxin⟩
        · exact Or.inr hxe

theorem mem_foldl_addUrl (us : List String) :
    ∀ (g : Groups) (sig : List Char) (es : List Entry) (x : Entry),
      (sig, es) ∈ us.foldl addUrl g → x ∈ es →
        (∃ es₀, (sig, es₀) ∈ g ∧ x ∈ es₀) ∨ x.1 ∈ us := by
  induction us with
  | nil => intro g sig es x hm hx; exact Or.inl ⟨es, hm, hx⟩
  | cons u rest ih =>
    intro g sig es x hm hx
    rw [List.foldl_cons] at hm
    rcases ih _ sig es x hm hx with ⟨es₀, hin, hxin⟩ | hxu
    · rw [addUrl] at hin
      rcases mem_groupInsert_entry _ _ g sig es₀ x hin hxin with ⟨es₁, hin₁, hx₁⟩ | hxe
      · exact Or.inl ⟨es₁, hin₁, hx₁⟩
      · right
        rw [hxe]
        simp
    · right
      simp [hxu]

theorem selectGroup_mem (g : List Entry) (u : String) (hu : u ∈ selectGroup g) :
    ∃ e ∈ g, u = e.1 := by
  rw [selectGroup_eq_walkSelect] at hu
  obtain ⟨pr, hpr, hu⟩ := List.mem_map.mp hu
  obtain ⟨e, he, hpe⟩ := walkSelect_mem _ _ _ hpr
  refine ⟨e, ?_, ?_⟩
  · exact List.mem_of_mem_take ((sortedUrls_perm g).mem_iff.mp he)
  · rw [hpe] at hu
    exact hu.symm

/-! ### Batching -/

theorem chunks_cons (a : String) (as : List String) :
    chunks (a :: as) = (a :: as).take 1000 :: chunks ((a :: as).drop 1000) := by
  rw [chunks, chunks]
  have hlen : ((a :: as).length + 999) / 1000 =
      (((a :: as).drop 1000).length + 999) / 1000 + 1 := by
    simp only [List.length_drop, List.length_cons]
    omega
  rw [hlen, List.range_succ_eq_map]
  simp only [List.map_cons, List.map_map, Nat.mul_zero, List.drop_zero]
  congr 1
  apply List.map_congr_left
  intro i _
  simp only [Function.comp_apply, List.drop_drop]
  congr 2
  omega

theorem chunks_flatten : ∀ l : List String, (chunks l).flatten = l
  | [] => by simp [chunks]
  | a :: as => by
    rw [chunks_cons, List.flatten_cons, chunks_flatten ((a :: as).drop 1000)]
    exact List.take_append_drop 1000 (a :: as)
termination_by l => l.length
decreasing_by simp only [List.length_drop, List.length_cons]; omega

theorem filter_notmem_append (sigs keys : List (List Char)) (σ : List Char) :
    sigs.filter (fun s => s ∉ keys ++ [σ]) =
      (sigs.filter (fun s => s ∉ keys)).filter (fun s => s ≠ σ) := by
  rw [List.filter_filter]
  apply List.filter_congr
  intro s _
  simp [List.mem_append, List.mem_singleton, not_or, Bool.and_comm]

theorem keys_foldl_addUrl (us : List String) :
    ∀ g : Groups,
      (us.foldl addUrl g).map Prod.fst =
        g.map Prod.fst ++
          firstOccs ((us.map (fun u => (get_url_signature u).1)).filter
            (fun s => s ∉ g.map Prod.fst)) := by
  induction us with
  | nil => intro g; simp [firstOccs]
  | cons u rest ih =>
    intro g
    rw [List.foldl_cons, List.map_cons, List.filter_cons]
    by_cases hm : (get_url_signature u).1 ∈ g.map Prod.fst
    · rw [if_neg (by simp [hm]), ih (addUrl g u)]
      have hkeys : (addUrl g u).map Prod.fst = g.map Prod.fst := by
        rw [addUrl, keys_groupInsert, if_pos hm]
      rw [hkeys]
    · rw [if_pos (by simp [hm]), ih (addUrl g u)]
      have hkeys : (addUrl g u).map Prod.fst =
          g.map Prod.fst ++ [(get_url_signature u).1] := by
        rw [addUrl, keys_groupInsert, if_neg hm]
      rw [hkeys]
      simp only [firstOccs]
      rw [List.append_assoc, List.singleton_append]
      exact congrArg
        (fun l => List.map Prod.fst g ++ (get_url_signature u).1 :: firstOccs l)
        (filter_notmem_append _ _ _)

/-- Groups are keyed in first-seen signature order. -/
theorem groupsOf_keys (us : List String) :
    (groupsOf us).map Prod.fst =
      firstOccs (us.map (fun u => (get_url_signature u).1)) := by
  rw [groupsOf, keys_foldl_addUrl]
  simp only [List.map_nil, List.nil_append]
  congr 1
  rw [List.filter_eq_self]
  intro s _
  simp

/-! ### The run loop: events, cancellation, result -/

theorem stage1_events (exts : List (List Char)) (total : Nat) (flag : Nat → Bool) :
    ∀ (bs : List (List String)) (k processed : Nat) (g : Groups),
      ∀ ev ∈ (stage1 exts total flag bs k processed g).1,
        ∃ a b c, ev = Event.progress a b c := by
  intro bs
  induction bs with
  | nil => intro k p g ev hev; simp [stage1] at hev
  | cons batch rest ih =>
    intro k p g ev hev
    by_cases hf : flag k = true
    · simp only [stage1, if_pos hf] at hev
      rcases List.mem_cons.mp hev with h | h
      · exact ⟨_, _, _, h⟩
      · exact ih _ _ _ ev h
    · simp only [stage1, if_neg hf] at hev
      simp at hev

theorem stage2_events (flag : Nat → Bool) (total : Nat) :
    ∀ (gs : List (List Char × List Entry)) (k pg : Nat),
      ∀ ev ∈ (stage2 flag total gs k pg).1,
        ∃ a b c, ev = Event.progress a b c := by
  intro gs
  induction gs with
  | nil => intro k pg ev hev; simp [stage2] at hev
  | cons gr rest ih =>
    obtain ⟨sig, g⟩ := gr
    intro k pg ev hev
    by_cases hf : flag k = true
    · simp only [stage2, if_pos hf] at hev
      rcases List.mem_cons.mp hev with h | h
      · exact ⟨_, _, _, h⟩
      · exact ih _ _ ev h
    · simp only [stage2, if_neg hf] at hev
      simp at hev

theorem stage1_some (exts : List (List Char)) (total : Nat) (flag : Nat → Bool) :
    ∀ (bs : List (List String)) (k processed : Nat) (g g' : Groups) (k' : Nat),
      (stage1 exts total flag bs k processed g).2 = some (g', k') →
      k' = k + bs.length ∧
      g' = (bs.flatten.filter (keepUrl exts)).foldl addUrl g ∧
      ∀ j, k ≤ j → j < k + bs.length → flag j = true := by
  intro bs
  induction bs with
  | nil =>
    intro k p g g' k' h
    simp only [stage1, Option.some.injEq, Prod.mk.injEq] at h
    refine ⟨by simp [← h.2], by simp [← h.1], ?_⟩
    intro j h1 h2
    simp only [List.length_nil] at h2
    omega
  | cons batch rest ih =>
    intro k p g g' k' h
    by_cases hf : flag k = true
    · simp only [stage1, if_pos hf] at h
      obtain ⟨hk, hg, hfl⟩ := ih (k + 1) _ _ g' k' h
      refine ⟨by simp only [List.length_cons]; omega, ?_, ?_⟩
      · rw [hg, List.flatten_cons, List.filter_append, List.foldl_append]
      · intro j h1 h2
        rcases Nat.eq_or_lt_of_le h1 with he | hlt
        · rw [← he]; exact hf
        · exact hfl j hlt (by simp only [List.length_cons] at h2; omega)
    · simp only [stage1, if_neg hf] at h
      exact absurd h (by simp)

theorem stage2_some (flag : Nat → Bool) (total : Nat) :
    ∀ (gs : List (List Char × List Entry)) (k pg : Nat) (res : List String),
      (stage2 flag total gs k pg).2 = some res →
      res = (gs.map (fun gr => selectGroup gr.2)).flatten ∧
      ∀ j, k ≤ j → j < k + gs.length → flag j = true := by
  intro gs
  induction gs with
  | nil =>
    intro k pg res h
    simp only [stage2, Option.some.injEq] at h
    refine ⟨by simp [← h], ?_⟩
    intro j h1 h2
    simp only [List.length_nil] at h2
    omega
  | cons gr rest ih =>
    obtain ⟨sig, g⟩ := gr
    intro k pg res h
    by_cases hf : flag k = true
    · simp only [stage2, if_pos hf] at h
      cases h2 : (stage2 flag total rest (k + 1) (pg + 1)).2 with
      | none => rw [h2] at h; exact absurd h (by simp)
      | some res' =>
        rw [h2] at h
        have h' := Option.some.inj h
        obtain ⟨hres, hfl⟩ := ih (k + 1) (pg + 1) res' h2
        refine ⟨?_, ?_⟩
        · rw [← h', hres, List.map_cons, List.flatten_cons]
        · intro j h1 hlt
          rcases Nat.eq_or_lt_of_le h1 with he | hl
          · rw [← he]; exact hf
          · exact hfl j hl (by simp only [List.length_cons] at hlt; omega)
    · simp only [stage2, if_neg hf] at h
      exact absurd h (by simp)

theorem stage1_true (exts : List (List Char)) (total : Nat) :
    ∀ (bs : List (List String)) (k processed : Nat) (g : Groups),
      (stage1 exts total (fun _ => true) bs k processed g).2 =
        some ((bs.flatten.filter (keepUrl exts)).foldl addUrl g, k + bs.length) := by
  intro bs
  induction bs with
  | nil => intro k p g; simp [stage1]
  | cons batch rest ih =>
    intro k p g
    have hlen : k + 1 + rest.length = k + (batch :: rest).length := by
      simp only [List.length_cons]
      omega
    simp only [stage1]
    rw [ih, List.flatten_cons, List.filter_append, List.foldl_append, hlen]
    simp

theorem stage2_true (total : Nat) :
    ∀ (gs : List (List Char × List Entry)) (k pg : Nat),
      (stage2 (fun _ => true) total gs k pg).2 =
        some ((gs.map (fun gr => selectGroup gr.2)).flatten) := by
  intro gs
  induction gs with
  | nil => intro k pg; simp [stage2]
  | cons gr rest ih =>
    obtain ⟨sig, g⟩ := gr
    intro k pg
    simp only [stage2]
    rw [ih]
    simp

/-- Completing a run delivers exactly the pipeline result. -/
theorem run_true (urls : List String) (exts : List (List Char)) :
    ∃ evs : List Event,
      run (fun _ => true) urls exts = evs ++ [Event.result (processUrls urls exts)] ∧
      ∀ ev ∈ evs, ∃ a b c, ev = Event.progress a b c := by
  simp only [run]
  split
  next evs1 heq =>
    have h1 := stage1_true exts urls.length (chunks urls) 0 0 []
    rw [heq] at h1
    simp at h1
  next evs1 groups k heq =>
    have h1 := stage1_true exts urls.length (chunks urls) 0 0 []
    rw [heq] at h1
    simp only [Option.some.injEq, Prod.mk.injEq] at h1
    obtain ⟨hg, hk⟩ := h1
    split
    next evs2 heq2 =>
      have h2 := stage2_true groups.length groups k 0
      rw [heq2] at h2
      simp at h2
    next evs2 final heq2 =>
      have h2 := stage2_true groups.length groups k 0
      rw [heq2] at h2
      simp only [Option.some.injEq] at h2
      refine ⟨evs1 ++ evs2, ?_, ?_⟩
      · have hfin : final = processUrls urls exts := by
          rw [h2, hg, chunks_flatten]
          rfl
        rw [hfin]
      · intro ev hev
        rcases List.mem_append.mp hev with h | h
        · exact stage1_events _ _ _ _ _ _ _ ev (by rw [heq]; exact h)
        · exact stage2_events _ _ _ _ _ ev (by rw [heq2]; exact h)

/-- A run that observes a cleared flag at some reachable check emits
only progress events: no result and no error. -/
theorem run_cancelled_events (flag : Nat → Bool) (urls : List String)
    (exts : List (List Char))
    (h : ∃ j, j < numChecks urls exts ∧ flag j = false) :
    ∀ ev ∈ run flag urls exts, ∃ a b c, ev = Event.progress a b c := by
  obtain ⟨j, hj, hjf⟩ := h
  intro ev hev
  simp only [run] at hev
  split at hev
  next evs1 heq =>
    exact stage1_events _ _ _ _ _ _ _ ev (by rw [heq]; exact hev)
  next evs1 groups k heq =>
    obtain ⟨hk, hg, hfl1⟩ := stage1_some exts urls.length flag (chunks urls) 0 0 []
      groups k (by rw [heq])
    have hglen : groups.length = (groupsOf (urls.filter (keepUrl exts))).length := by
      rw [hg, chunks_flatten]
      rfl
    split at hev
    next evs2 heq2 =>
      rcases List.mem_append.mp hev with hm | hm
      · exact stage1_events _ _ _ _ _ _ _ ev (by rw [heq]; exact hm)
      · exact stage2_events _ _ _ _ _ ev (by rw [heq2]; exact hm)
    next evs2 final heq2 =>
      exfalso
      obtain ⟨hres, hfl2⟩ := stage2_some flag groups.length groups k 0 final
        (by rw [heq2])
      rw [numChecks] at hj
      by_cases hjb : j < (chunks urls).length
      · have := hfl1 j (by omega) (by omega)
        rw [this] at hjf
        exact Bool.true_eq_false.mp hjf
      · have := hfl2 j (by omega) (by omega)
        rw [this] at hjf
        exact Bool.true_eq_false.mp hjf

/-! ### Claim theorems -/

set_option maxRecDepth 10000

/-- Concrete input for the C2 counterexample: 100 arrivals sharing the
fingerprint `{a}` followed by six arrivals with six further distinct
fingerprints, all under one signature. -/
def c2urls : List String :=
  List.replicate 100 "http://h/p?a=1" ++
    ["http://h/p?b=1", "http://h/p?c=1", "http://h/p?d=1",
     "http://h/p?e=1", "http://h/p?f=1", "http://h/p?g=1"]

/-- C1: per group, representative selection sorts (at most) the first
100 arrival-ordered members descending by `(fingerprint size, score)`
with a stable sort (equal keys keep arrival order), then walks the
sorted list emitting each URL whose exact fingerprint set is new until
5 distinct fingerprints are taken; groups contribute their
representatives to the output in first-seen signature order. -/
theorem claim_C1 :
    (∀ g : List Entry, selectGroup g = specSelect 5 [] (sortedUrls g))
    ∧ (∀ g : List Entry, List.Perm (sortedUrls g) (g.take 100))
    ∧ (∀ g : List Entry, (sortedUrls g).Pairwise (fun a b => entryLe a b = true))
    ∧ (∀ (g : List Entry) (k : Nat × Nat),
        (sortedUrls g).filter (fun e => entryKey e = k) =
          (g.take 100).filter (fun e => entryKey e = k))
    ∧ (∀ us : List String, (groupsOf us).map Prod.fst =
        firstOccs (us.map (fun u => (get_url_signature u).1)))
    ∧ (∀ (urls : List String) (exts : List (List Char)),
        processUrls urls exts =
          ((groupsOf (urls.filter (keepUrl exts))).map
            (fun gr => selectGroup gr.2)).flatten) := by
  refine ⟨?_, sortedUrls_perm, sortedUrls_sorted, sortedUrls_filter_key,
    groupsOf_keys, fun urls exts => rfl⟩
  intro g
  rw [selectGroup_eq_walkSelect, walkSelect_eq_specSelect]
  rfl

/-- C2 counterexample: a group of 106 members whose first 100 all share
one fingerprint while the whole group holds 7 ≥ 6 distinct
fingerprints; the pipeline emits 1 representative for it, not 5,
because only the first 100 arrivals are ranked. -/
theorem claim_C2_counterexample :
    6 ≤ distinctFps (((groupsOf c2urls).map Prod.snd).flatten) ∧
    (groupsOf c2urls).length = 1 ∧
    (processUrls c2urls []).length = 1 := by
  decide

/-- C2 (amended): per group at most 5 URLs are emitted and no two
emitted URLs share a fingerprint; the number emitted is exactly
`min 5 (number of distinct fingerprints among the first 100 members)` —
so a group whose first 100 members hold ≥ 6 distinct fingerprints gets
exactly 5, and a group of 50 members sharing one fingerprint gets 1. -/
theorem claim_C2 :
    (∀ g : List Entry, (selectGroup g).length ≤ 5)
    ∧ (∀ g : List Entry, (selectGroup g).length = min 5 (distinctFps (g.take 100)))
    ∧ (∀ g : List Entry,
        selectGroup g = (walkSelect [] (sortedUrls g)).map Prod.fst ∧
        ((walkSelect [] (sortedUrls g)).map Prod.snd).Nodup ∧
        ∀ pr ∈ walkSelect [] (sortedUrls g), ∃ e ∈ g.take 100, pr = (e.1, e.2.1))
    ∧ (selectGroup (List.replicate 50 (("u", [("a").data], 2) : Entry))).length = 1 := by
  refine ⟨?_, selectGroup_length, ?_, by decide⟩
  · intro g
    rw [selectGroup_length]
    omega
  · intro g
    refine ⟨selectGroup_eq_walkSelect g, (walkSelect_snd_nodup _ _).1, ?_⟩
    intro pr hpr
    obtain ⟨e, he, hpe⟩ := walkSelect_mem _ _ _ hpr
    exact ⟨e, (sortedUrls_perm g).mem_iff.mp he, hpe⟩

/-- C2 witness: the emitted pair of a singleton group comes from a
group member. -/
theorem claim_C2_witness :
    (("u", [("a").data]) : String × Fp) ∈
        walkSelect [] (sortedUrls [("u", [("a").data], 2)]) ∧
    ∃ e ∈ ([("u", [("a").data], 2)] : List Entry).take 100,
      (("u", [("a").data]) : String × Fp) = (e.1, e.2.1) :=
  ⟨by decide,
    (claim_C2.2.2.1 [("u", [("a").data], 2)]).2.2 ("u", [("a").data]) (by decide)⟩

/-- C3: for every URL that parses, the signature key lowercases host
and path, splits the path on `/`, drops empty segments, replaces
all-digit or length-≥-32 segments by `{param}`, rejoins with `/` and
concatenates host with the rejoined path; `12345` is replaced, the
6-letter segment `abcdef` is not, a segment of 32 `a`s is replaced. -/
theorem claim_C3 :
    (∀ (url : String) (p : ParseResult), pyUrlparse url = some p →
      (get_url_signature url).1 = specSignatureKey p.netloc p.path)
    ∧ (get_url_signature "http://h/12345").1 = ("h\x7bparam\x7d").data
    ∧ (get_url_signature "http://h/abcdef").1 = ("habcdef").data
    ∧ (get_url_signature "http://h/aaaaaaaaaaaaaaaaaaaaaaaaaaaaaaaa").1 =
        ("h\x7bparam\x7d").data := by
  exact ⟨get_url_signature_key, by decide, by decide, by decide⟩

/-- C3 witness: the refinement applied at a concrete URL. -/
theorem claim_C3_witness :
    pyUrlparse "http://Ex.COM/a/12345/b?q=1" =
      some ⟨("http").data, ("Ex.COM").data, ("/a/12345/b").data, [], ("q=1").data, []⟩ ∧
    (get_url_signature "http://Ex.COM/a/12345/b?q=1").1 =
      specSignatureKey ("Ex.COM").data ("/a/12345/b").data :=
  ⟨rfl, claim_C3.1 "http://Ex.COM/a/12345/b?q=1" _ rfl⟩

/-- C4: the fingerprint and score are computed over `&`-delimited
pairs: a pair without `=` contributes to neither; keys are lowercased,
denylisted noise keys are skipped; surviving keys form a set while each
value occurrence scores independently (+1 all-digits, else +2 complex
characters, else +1.5 length > 20, else +1; empty value scores 0 but
the key joins the fingerprint). -/
theorem claim_C4 :
    (∀ (q k : List Char),
      k ∈ (analyze_query_params q).1 ↔ ∃ p ∈ pySplit '&' q, specPairKey p = some k)
    ∧ (∀ q : List Char,
        (analyze_query_params q).2 = ((pySplit '&' q).map specPairScore).sum)
    ∧ (∀ q : List Char, (analyze_query_params q).1.Nodup)
    ∧ (∀ v : List Char, scoreAsRat (scoreValue v) =
        if v.isEmpty then 0
        else if pyIsdigit v then 1
        else if v.any (complexChars.contains ·) then 2
        else if 20 < v.length then 3 / 2
        else 1)
    ∧ analyze_query_params
        ("a=1&a=xx&b=&noeq&utm_source=5&c=[1]&d=aaaaaaaaaaaaaaaaaaaaa").data =
        ([("a").data, ("b").data, ("c").data, ("d").data], 11)
    ∧ scoreAsRat 11 = 11 / 2 := by
  refine ⟨?_, ?_, analyze_query_params_nodup, ?_, by decide, ?_⟩
  · intro q k
    rw [analyze_query_params]
    by_cases hq : q.isEmpty
    · have hq' : q = [] := by simpa using hq
      subst hq'
      simp [pySplit, specPairKey, splitFirst]
    · rw [if_neg hq, foldl_analyzeStep_mem]
      simp
  · intro q
    rw [analyze_query_params]
    by_cases hq : q.isEmpty
    · have hq' : q = [] := by simpa using hq
      subst hq'
      simp [pySplit, specPairScore, splitFirst]
    · rw [if_neg hq, foldl_analyzeStep_score]
      simp
  · intro v
    rw [scoreValue, scoreAsRat]
    by_cases h1 : v.isEmpty
    · simp [h1]
    · rw [if_neg h1, if_neg h1]
      by_cases h2 : pyIsdigit v
      · norm_num [h2]
      · rw [if_neg h2, if_neg h2]
        by_cases h3 : v.any (complexChars.contains ·)
        · rw [if_pos h3, if_pos h3]
          norm_num
        · rw [if_neg h3, if_neg h3]
          by_cases h4 : 20 < v.length
          · norm_num [h4]
          · rw [if_neg h4, if_neg h4]
            norm_num
  · rw [scoreAsRat]
    norm_num

/-- C5: the extension filter keeps a parsed URL iff its lowercased path
ends with no configured extension; `b.JPG` with `{.jpg}` is filtered
out, `bjpg` is kept. -/
theorem claim_C5 :
    (∀ (url : String) (exts : List (List Char)) (p : ParseResult),
      pyUrlparse url = some p →
      (keepUrl exts url = true ↔
        ∀ ext ∈ exts, pyEndsWith (pyLower p.path) ext = false))
    ∧ keepUrl [(".jpg").data] "http://x.com/a/b.JPG" = false
    ∧ keepUrl [(".jpg").data] "http://x.com/a/bjpg" = true := by
  refine ⟨?_, by decide, by decide⟩
  intro url exts p h
  rw [keepUrl, h]
  simp only [Bool.not_eq_true', List.any_eq_false, Bool.not_eq_true]

/-- C5 witness: the filter characterisation applied at a concrete URL
and extension set. -/
theorem claim_C5_witness :
    pyUrlparse "http://x.com/a/bjpg" =
      some ⟨("http").data, ("x.com").data, ("/a/bjpg").data, [], [], []⟩ ∧
    (keepUrl [(".jpg").data] "http://x.com/a/bjpg" = true ↔
      ∀ ext ∈ [(".jpg").data], pyEndsWith (pyLower ("/a/bjpg").data) ext = false) :=
  ⟨rfl, claim_C5.1 "http://x.com/a/bjpg" [(".jpg").data] _ rfl⟩

/-- C6: on any input string whose parse fails, the signature
computation returns `(original string, empty fingerprint, score 0)`
instead of raising, so in the grouping stage such a URL keys a group by
its own raw text and survives as its own singleton group. -/
theorem claim_C6 :
    ∀ url : String, pyUrlparse url = none →
      get_url_signature url = (url.data, [], 0) ∧
      groupsOf [url] = [(url.data, [(url, [], 0)])] := by
  intro url h
  constructor
  · simp [get_url_signature, h]
  · simp [groupsOf, addUrl, get_url_signature, h, groupInsert]

/-- C6 witness: a concrete unparseable URL (mismatched bracket). -/
theorem claim_C6_witness :
    pyUrlparse "http://[a" = none ∧
      (get_url_signature "http://[a" = (("http://[a").data, [], 0) ∧
       groupsOf ["http://[a"] = [(("http://[a").data, [("http://[a", [], 0)])]) :=
  ⟨rfl, claim_C6 "http://[a" rfl⟩

/-- C7 counterexample: the signature of the example user URL is
`a.comuser/{param}` — host and path are concatenated with no
separator — not the claimed `a.com/user/{param}`. -/
theorem claim_C7_counterexample :
    (get_url_signature "http://a.com/user/123?x=1").1 ≠ ("a.com/user/\x7bparam\x7d").data ∧
    (get_url_signature "http://a.com/user/123?x=1").1 = ("a.comuser/\x7bparam\x7d").data := by
  decide

/-- C7 (amended): on the example input with extensions `{.png}`, the
two user URLs collapse into one group under signature
`a.comuser/{param}` with fingerprint `{x}`, the `.png` URL is excluded,
and the output is exactly the first arrival
`http://a.com/user/123?x=1`. -/
theorem claim_C7 :
    (get_url_signature "http://a.com/user/123?x=1").1 = ("a.comuser/\x7bparam\x7d").data ∧
    (get_url_signature "http://a.com/user/456?x=2").1 = ("a.comuser/\x7bparam\x7d").data ∧
    (get_url_signature "http://a.com/user/123?x=1").2.1 = [("x").data] ∧
    (get_url_signature "http://a.com/user/456?x=2").2.1 = [("x").data] ∧
    keepUrl [(".png").data] "http://a.com/logo.png" = false ∧
    (groupsOf ["http://a.com/user/123?x=1", "http://a.com/user/456?x=2"]).length = 1 ∧
    processUrls
      ["http://a.com/user/123?x=1", "http://a.com/user/456?x=2", "http://a.com/logo.png"]
      [(".png").data] = ["http://a.com/user/123?x=1"] := by
  decide

/-- C8: whenever the cancellation flag is observed cleared at a
reachable batch or group check, the run emits no result event and no
error event — every emitted event is a progress notification. -/
theorem claim_C8 :
    ∀ (flag : Nat → Bool) (urls : List String) (exts : List (List Char)),
      (∃ j, j < numChecks urls exts ∧ flag j = false) →
      ∀ ev ∈ run flag urls exts,
        (∀ r, ev ≠ Event.result r) ∧ (∀ msg, ev ≠ Event.err msg) := by
  intro flag urls exts h ev hev
  obtain ⟨a, b, c, hev'⟩ := run_cancelled_events flag urls exts h ev hev
  subst hev'
  exact ⟨fun r hr => Event.noConfusion hr, fun m hm => Event.noConfusion hm⟩

/-- C8 witness: a run over one URL with the flag cleared from the
start. -/
theorem claim_C8_witness :
    (∃ j, j < numChecks ["http://h/x"] [] ∧ (fun _ => false : Nat → Bool) j = false) ∧
    ∀ ev ∈ run (fun _ => false) ["http://h/x"] [],
      (∀ r, ev ≠ Event.result r) ∧ (∀ msg, ev ≠ Event.err msg) :=
  ⟨⟨0, by decide, rfl⟩,
    claim_C8 (fun _ => false) ["http://h/x"] [] ⟨0, by decide, rfl⟩⟩

/-- C9: the signature key is not injective across endpoints:
`http://a.comx/` and `http://a.com/x` have different hosts yet the same
signature key, so they are merged into one group. -/
theorem claim_C9 :
    (get_url_signature "http://a.comx/").1 = (get_url_signature "http://a.com/x").1 ∧
    (pyUrlparse "http://a.comx/").map ParseResult.netloc ≠
      (pyUrlparse "http://a.com/x").map ParseResult.netloc ∧
    (groupsOf ["http://a.comx/", "http://a.com/x"]).length = 1 := by
  decide

/-- C10: every URL in the pipeline output is an element of the input
list, unmodified. -/
theorem claim_C10 :
    ∀ (urls : List String) (exts : List (List Char)) (u : String),
      u ∈ processUrls urls exts → u ∈ urls := by
  intro urls exts u hu
  simp only [processUrls] at hu
  obtain ⟨lsel, hlsel, hu⟩ := List.mem_flatten.mp hu
  obtain ⟨gr, hgr, hsel⟩ := List.mem_map.mp hlsel
  rw [← hsel] at hu
  obtain ⟨e, he, hue⟩ := selectGroup_mem gr.2 u hu
  rcases mem_foldl_addUrl (urls.filter (keepUrl exts)) [] gr.1 gr.2 e
      (by simpa using hgr) he with ⟨es₀, hin, _⟩ | hmem
  · simp at hin
  · rw [hue]
    exact List.mem_of_mem_filter hmem

/-- C10 witness: a one-URL pipeline. -/
theorem claim_C10_witness :
    "http://h/x" ∈ processUrls ["http://h/x"] [] ∧ "http://h/x" ∈ ["http://h/x"] :=
  ⟨by decide, claim_C10 ["http://h/x"] [] "http://h/x" (by decide)⟩

end UrlFilter
